import Mathlib

/-!
Shallow embedding of the `nomgen` Go code generator (`nomgen/nomgen.go`).

The noms value library (an external collaborator of the core) is modelled per
its contract: immutable values with deep structural equality, either a scalar
string (`types.String`) or a key-ordered mapping (`types.Map`).  A mapping is
an association list whose stored order is its iteration order.  The noms
`types.Set` values held by the generator context are modelled as duplicate-free
lists with insertion-order extraction (`Any` = head), a deterministic
refinement of the library's arbitrary-order sets.

Output written to the `io.Writer` is modelled as a list of rendered template
blocks (template text substitution itself is an external rendering service).
A `Chk.Fail` or runtime panic aborts the run; we model it as an `Except.error`
carrying the state (including output already written) at the failure point.
-/


/-- A noms value as used by the generator: `types.String` or `types.Map`
(an ordered association list of key/value pairs). -/
inductive Value where
  | str : String → Value
  | map : List (Value × Value) → Value
deriving Repr

mutual
/-- Structural (deep) equality on values, the noms `Equals` contract. -/
def decEqValue : (a b : Value) → Decidable (a = b)
  | Value.str a, Value.str b =>
    match String.decEq a b with
    | isTrue h => isTrue (by rw [h])
    | isFalse h => isFalse (by intro hh; cases hh; exact h rfl)
  | Value.str _, Value.map _ => isFalse (by intro h; cases h)
  | Value.map _, Value.str _ => isFalse (by intro h; cases h)
  | Value.map a, Value.map b =>
    match decEqPairs a b with
    | isTrue h => isTrue (by rw [h])
    | isFalse h => isFalse (by intro hh; cases hh; exact h rfl)

def decEqPairs : (a b : List (Value × Value)) → Decidable (a = b)
  | [], [] => isTrue rfl
  | [], _ :: _ => isFalse (by intro h; cases h)
  | _ :: _, [] => isFalse (by intro h; cases h)
  | (k1, v1) :: r1, (k2, v2) :: r2 =>
    match decEqValue k1 k2 with
    | isFalse h =>
      isFalse (by intro hh; injection hh with h1 h2; injection h1 with hk hv; exact h hk)
    | isTrue hk =>
      match decEqValue v1 v2 with
      | isFalse h =>
        isFalse (by intro hh; injection hh with h1 h2; injection h1 with hk2 hv; exact h hv)
      | isTrue hv =>
        match decEqPairs r1 r2 with
        | isFalse h => isFalse (by intro hh; injection hh with h1 h2; exact h h2)
        | isTrue hr => isTrue (by rw [hk, hv, hr])
end

instance : DecidableEq Value := decEqValue

mutual
/-- Nesting depth of a value: a structural fuel bound for the name-resolver
recursion, which descends through map lookups rather than constructors. -/
def Value.depth : Value → Nat
  | Value.str _ => 1
  | Value.map ps => 1 + pairsDepth ps

def pairsDepth : List (Value × Value) → Nat
  | [] => 0
  | (k, v) :: rest => max (max (Value.depth k) (Value.depth v)) (pairsDepth rest)
end

/-- Association-list lookup by (structurally equal) key: the model of
`types.Map.Get`. Returns `none` when the key is absent (`Get` yields `nil`,
whose subsequent use panics). -/
def mapGet : List (Value × Value) → Value → Option Value
  | [], _ => none
  | (k, v) :: rest, key => if k = key then some v else mapGet rest key

/-- `val.Get(key)` on a value: only mappings support lookup. -/
def Value.get : Value → Value → Option Value
  | Value.str _, _ => none
  | Value.map ps, key => mapGet ps key

/-- Is the value a mapping (`types.Map`)? -/
def Value.isMap : Value → Bool
  | Value.str _ => false
  | Value.map _ => true

/-- `strings.Title`: upper-case every letter that begins a word, i.e. every
letter not preceded by a letter (ASCII; the generator only feeds it ASCII
identifiers). -/
def titleChars : Bool → List Char → List Char
  | _, [] => []
  | prevIsLetter, c :: cs =>
    (if prevIsLetter then c else c.toUpper) :: titleChars c.isAlpha cs

def title (s : String) : String := String.mk (titleChars false s.data)

/-- The fixed set of recognized primitive type names
(`getGoStructName`, first switch). -/
def primNames : List String :=
  ["bool", "int16", "int32", "int64", "uint16", "uint32", "uint64",
   "float32", "float64", "blob", "string", "set", "map", "value"]

/-- Depth-fuelled body of `getGoStructName`.  `none` models `Chk.Fail`
(unknown primitive name, unknown `$type` discriminator, missing or non-string
required child).  At fuel `v.depth` the fuel never runs out
(`goName_congr`). -/
def goName : Nat → Value → Option String
  | _, Value.str s => if s ∈ primNames then some (title s) else none
  | 0, Value.map _ => none
  | fuel + 1, Value.map ps =>
    match mapGet ps (Value.str "$type") with
    | some (Value.str typ) =>
      if typ = "noms.ListDef" then
        (mapGet ps (Value.str "elem")).bind
          (fun e => (goName fuel e).map (fun n => n ++ "List"))
      else if typ = "noms.MapDef" then
        (mapGet ps (Value.str "key")).bind (fun k =>
          (mapGet ps (Value.str "value")).bind (fun v =>
            (goName fuel k).bind (fun kn =>
              (goName fuel v).map (fun vn => kn ++ vn ++ "Map"))))
      else if typ = "noms.SetDef" then
        (mapGet ps (Value.str "elem")).bind
          (fun e => (goName fuel e).map (fun n => n ++ "Set"))
      else if typ = "noms.StructDef" then
        match mapGet ps (Value.str "$name") with
        | some (Value.str nm) => some nm
        | _ => none
      else none
    | _ => none

/-- `getGoStructName`: the type-name resolver. -/
def getGoStructName (v : Value) : Option String := goName v.depth v

/-- `getGoTypeName`: qualifies primitive scalars with the `types.` package
prefix; composite (mapping) definitions are referenced by bare name. -/
def getGoTypeName (v : Value) : Option String :=
  match v with
  | Value.str _ => (getGoStructName v).map (fun n => "types." ++ n)
  | Value.map _ => getGoStructName v

/-! ## The generator context and emitters -/

/-- One rendered template block, as handed to the template rendering
service (`header.tmpl`, `list.tmpl`, `map.tmpl`, `set.tmpl`, `struct.tmpl`,
`field.tmpl` with their respective data records). -/
inductive Out where
  | header (packageName : String)
  | listT (structName elemName : String)
  | mapT (structName keyName valueName : String)
  | setT (structName elemName : String)
  | structT (structName : String)
  | fieldT (structName fieldType goFieldName fieldName : String)
deriving DecidableEq, Repr

/-- The generator context `NG`: `written` and `toWrite` are the noms sets of
type definitions already / not yet emitted, `out` the output stream. -/
structure NG where
  written : List Value
  toWrite : List Value
  out : List Out
deriving DecidableEq, Repr

/-- `types.Set.Insert` on the deduplicating list model. -/
def setInsert (s : List Value) (v : Value) : List Value :=
  if v ∈ s then s else s ++ [v]

/-- `types.Set.Remove`. -/
def setRemove (s : List Value) (v : Value) : List Value :=
  s.filter (fun x => decide (x ≠ v))

/-- `New(w)`: a fresh context with empty sets. -/
def NG.new : NG := { written := [], toWrite := [], out := [] }

/-- Append one rendered block to the output writer. -/
def emit (ng : NG) (o : Out) : NG := { ng with out := ng.out ++ [o] }

/-- `addType`: registration of a discovered type definition.  A scalar
primitive is a no-op; a mapping already `written` or `toWrite` is a no-op;
otherwise it is inserted into `toWrite`.  (The Go `default:` branch fires
only on noms values that are neither `String` nor `Map`, which the
type-definition data model does not contain.) -/
def addType (ng : NG) (val : Value) : NG :=
  match val with
  | Value.str _ => ng
  | Value.map _ =>
    if val ∈ ng.written ∨ val ∈ ng.toWrite then ng
    else { ng with toWrite := setInsert ng.toWrite val }

/-- `writeField`: registers the field's type and renders `field.tmpl`.
`Chk.Fail` inside `getGoTypeName` aborts with the state at that point. -/
def writeField (ng : NG) (structName fieldName : String) (typeDef : Value) :
    Except NG NG :=
  let ng1 := addType ng typeDef
  match getGoTypeName typeDef with
  | some ft =>
    Except.ok (emit ng1 (Out.fieldT structName ft (title fieldName) fieldName))
  | none => Except.error ng1

/-- The body of `val.Iter` inside `writeStruct`: iterate the record's pairs in
stored order; a non-`String` key fails the `k.(types.String)` assertion; an
empty field name makes `sk[0]` panic (index out of range); a name whose first
byte is `'$'` is skipped; otherwise the field is emitted.  A panic stops the
iteration. -/
def iterFields (ng : NG) (structName : String) :
    List (Value × Value) → Except NG NG
  | [] => Except.ok ng
  | (k, v) :: rest =>
    match k with
    | Value.str sk =>
      if sk = "" then Except.error ng
      else if sk.front = '$' then iterFields ng structName rest
      else
        match writeField ng structName sk v with
        | Except.ok ng1 => iterFields ng1 structName rest
        | Except.error s => Except.error s
    | Value.map _ => Except.error ng

/-- `writeStruct`: render `struct.tmpl` with the record's name, then its
fields. -/
def writeStruct (ng : NG) (val : Value) : Except NG NG :=
  match getGoTypeName val with
  | none => Except.error ng
  | some structName =>
    let ng1 := emit ng (Out.structT structName)
    match val with
    | Value.map ps => iterFields ng1 structName ps
    | Value.str _ => Except.error ng1

/-- `writeList`: register `elem`, then render `list.tmpl`. -/
def writeList (ng : NG) (val : Value) : Except NG NG :=
  match val.get (Value.str "elem") with
  | none => Except.error ng
  | some elem =>
    let ng1 := addType ng elem
    match getGoTypeName val, getGoTypeName elem with
    | some sn, some en => Except.ok (emit ng1 (Out.listT sn en))
    | _, _ => Except.error ng1

/-- `writeSet`: register `elem`, then render `set.tmpl`. -/
def writeSet (ng : NG) (val : Value) : Except NG NG :=
  match val.get (Value.str "elem") with
  | none => Except.error ng
  | some elem =>
    let ng1 := addType ng elem
    match getGoTypeName val, getGoTypeName elem with
    | some sn, some en => Except.ok (emit ng1 (Out.setT sn en))
    | _, _ => Except.error ng1

/-- `writeMap`: register `key` and `value`, then render `map.tmpl`. -/
def writeMap (ng : NG) (val : Value) : Except NG NG :=
  match val.get (Value.str "key") with
  | none => Except.error ng
  | some key =>
    let ng1 := addType ng key
    match val.get (Value.str "value") with
    | none => Except.error ng1
    | some valueName =>
      let ng2 := addType ng1 valueName
      match getGoTypeName val, getGoTypeName key, getGoTypeName valueName with
      | some sn, some kn, some vn =>
        Except.ok (emit ng2 (Out.mapT sn kn vn))
      | _, _, _ => Except.error ng2

/-- `writeType`: dispatch on the `$type` discriminator; a missing or
non-string discriminator fails the type assertion, an unrecognized one hits
`Chk.Fail`. -/
def writeType (ng : NG) (val : Value) : Except NG NG :=
  match val.get (Value.str "$type") with
  | some (Value.str typ) =>
    if typ = "noms.ListDef" then writeList ng val
    else if typ = "noms.MapDef" then writeMap ng val
    else if typ = "noms.SetDef" then writeSet ng val
    else if typ = "noms.StructDef" then writeStruct ng val
    else Except.error ng
  | _ => Except.error ng

/-- Outcome of the work-list drain loop: completed, aborted by a panic, or
out of fuel (the fuel bound exists only in the model; `fuelSufficient`
discharges it). -/
inductive RunRes where
  | done (s : NG)
  | failed (s : NG)
  | outOfFuel (s : NG)
deriving DecidableEq, Repr

/-- The state carried by a run outcome. -/
def RunRes.state : RunRes → NG
  | RunRes.done s => s
  | RunRes.failed s => s
  | RunRes.outOfFuel s => s

/-- One `WriteGo` loop iteration's pop-then-mark step: remove the chosen
element from `toWrite` and insert it into `written`. -/
def popMark (ng : NG) (t : Value) : NG :=
  { ng with toWrite := setRemove ng.toWrite t,
            written := setInsert ng.written t }

/-- The `WriteGo` work-list drain loop: while `toWrite` is non-empty, take an
element, move it to `written`, dispatch it. -/
def runLoop : Nat → NG → RunRes
  | fuel, ng =>
    match ng.toWrite with
    | [] => RunRes.done ng
    | t :: _ =>
      match fuel with
      | 0 => RunRes.outOfFuel ng
      | fuel' + 1 =>
        match writeType (popMark ng t) t with
        | Except.ok ng2 => runLoop fuel' ng2
        | Except.error s => RunRes.failed s

/-- `WriteGo`: render the header, register the root definition, drain the
work list. -/
def writeGo (fuel : Nat) (ng : NG) (val : Value) (pkg : String) : RunRes :=
  runLoop fuel (addType (emit ng (Out.header pkg)) val)

/-! ## Derived notions used by the specification claims -/

/-- The values of a record's non-metadata fields, in stored order: keys that
are strings not beginning with the `'$'` sigil.  (An empty-named field is
listed as well; reaching it at emission time panics, so it never contributes
to a completed run.) -/
def fieldVals : List (Value × Value) → List Value
  | [] => []
  | (Value.str sk, v) :: rest =>
    if sk ≠ "" ∧ sk.front = '$' then fieldVals rest else v :: fieldVals rest
  | (Value.map _, _) :: rest => fieldVals rest

/-- The child type definitions a shape emitter registers: `elem` for
sequences and unordered collections, `key`/`value` for keyed mappings, the
non-metadata field values for named records. -/
def children (v : Value) : List Value :=
  match v with
  | Value.str _ => []
  | Value.map ps =>
    match mapGet ps (Value.str "$type") with
    | some (Value.str typ) =>
      if typ = "noms.ListDef" then (mapGet ps (Value.str "elem")).toList
      else if typ = "noms.MapDef" then
        (mapGet ps (Value.str "key")).toList ++
          (mapGet ps (Value.str "value")).toList
      else if typ = "noms.SetDef" then (mapGet ps (Value.str "elem")).toList
      else if typ = "noms.StructDef" then fieldVals ps
      else []
    | _ => []

/-- A type definition reachable from the root by following registered
children. -/
inductive Reaches (root : Value) : Value → Prop where
  | refl : Reaches root root
  | step : ∀ {t c : Value}, Reaches root t → c ∈ children t → Reaches root c

mutual
/-- All values structurally contained in a value (itself included). -/
def subValues : Value → List Value
  | Value.str s => [Value.str s]
  | Value.map ps => Value.map ps :: subPairs ps

def subPairs : List (Value × Value) → List Value
  | [] => []
  | (k, v) :: rest => subValues k ++ subValues v ++ subPairs rest
end

/-- The two context sets viewed together ("the union of the two sets"). -/
def unionList (s : NG) : List Value := s.written ++ s.toWrite

/-- Disjointness of `written` and `toWrite`. -/
def Disj (s : NG) : Prop := ∀ v ∈ s.written, v ∉ s.toWrite

/-- The internal well-formedness of the context: both sets duplicate-free and
disjoint. -/
def CtxInv (s : NG) : Prop := s.written.Nodup ∧ s.toWrite.Nodup ∧ Disj s

/-- Count of per-type blocks in the output (one per dispatched type
definition; field blocks and the header belong to their parent block). -/
def typeCount (out : List Out) : Nat :=
  out.countP (fun o =>
    match o with
    | Out.listT _ _ => true
    | Out.mapT _ _ _ => true
    | Out.setT _ _ => true
    | Out.structT _ => true
    | _ => false)

/-- Is this pair an emitted (non-metadata, string-keyed, non-empty-named)
record field? -/
def keepField (p : Value × Value) : Bool :=
  match p.1 with
  | Value.str sk => !(sk = "") && !(sk.front = '$')
  | Value.map _ => false

/-- The field block `writeField` renders for a pair (given the enclosing
record's name). -/
def blockOf (structName : String) (p : Value × Value) : Out :=
  match p with
  | (k, v) =>
    Out.fieldT structName ((getGoTypeName v).getD "")
      (title (match k with | Value.str sk => sk | _ => ""))
      (match k with | Value.str sk => sk | _ => "")

/-- The number of distinct mapping values structurally contained in the
root: an upper bound on the distinct non-primitive type definitions reachable
from it, and hence on the loop's iteration count. -/
def fuelBound (root : Value) : Nat :=
  (((subValues root).filter (fun v => v.isMap)).dedup).length

/-! ## State-evolution lemmas for the emitters -/

/-- The context carried by an emitter's outcome (success or abort). -/
def resNG : Except NG NG → NG
  | Except.ok s => s
  | Except.error s => s

/-- How an emitter may change the context while processing a definition with
candidate children `cs`: `written` untouched, output only appended, `toWrite`
only gains mappings from `cs` that were in neither set, duplicate-freeness
preserved. -/
structure StepExt (cs : List Value) (ng s : NG) : Prop where
  written_eq : s.written = ng.written
  toWrite_mono : ∀ u ∈ ng.toWrite, u ∈ s.toWrite
  toWrite_new : ∀ u ∈ s.toWrite,
    u ∈ ng.toWrite ∨ (u ∈ cs ∧ u.isMap = true ∧ u ∉ ng.written)
  nodup_pres : ng.toWrite.Nodup → s.toWrite.Nodup
  out_ext : ∃ extra, s.out = ng.out ++ extra

/-- The written set is closed under (non-primitive) children registration so
far. -/
def ClosedS (s : NG) : Prop :=
  ∀ t ∈ s.written, ∀ c ∈ children t, c.isMap = true → c ∈ unionList s

/-- Everything in either set is a reachable non-primitive definition. -/
def RInv (root : Value) (s : NG) : Prop :=
  ∀ v ∈ unionList s, Reaches root v ∧ v.isMap = true

/-- The distinct mapping values structurally contained in the root: the
catalogue bounding the work-list. -/
def mapSubs (root : Value) : List Value :=
  ((subValues root).filter (fun v => v.isMap)).dedup

/-- The context state right after `WriteGo` has rendered the header and
registered the root. -/
def startNG (root : Value) (pkg : String) : NG :=
  addType (emit NG.new (Out.header pkg)) root

/-- `Sequence(Int32)` in source vocabulary: a `noms.ListDef` of `int32`. -/
def exListInt32 : Value :=
  Value.map [(Value.str "$type", Value.str "noms.ListDef"),
             (Value.str "elem", Value.str "int32")]

/-- `KeyedMapping(Text, Boolean)`: a `noms.MapDef` from the text primitive
(source name `string`) to the boolean primitive (source name `bool`). -/
def exMapStringBool : Value :=
  Value.map [(Value.str "$type", Value.str "noms.MapDef"),
             (Value.str "key", Value.str "string"),
             (Value.str "value", Value.str "bool")]

/-- `UnorderedCollection(Text)`: a `noms.SetDef` of the text primitive. -/
def exSetString : Value :=
  Value.map [(Value.str "$type", Value.str "noms.SetDef"),
             (Value.str "elem", Value.str "string")]

/-- A named record declared `$name = "User"`. -/
def exUser : Value :=
  Value.map [(Value.str "$type", Value.str "noms.StructDef"),
             (Value.str "$name", Value.str "User")]

/-- A named record `$name = "A"` with no fields. -/
def recA1 : Value :=
  Value.map [(Value.str "$type", Value.str "noms.StructDef"),
             (Value.str "$name", Value.str "A")]

/-- A structurally different named record also declaring `$name = "A"`. -/
def recA2 : Value :=
  Value.map [(Value.str "$type", Value.str "noms.StructDef"),
             (Value.str "$name", Value.str "A"),
             (Value.str "x", Value.str "int32")]

/-- Is this pair a metadata field the record iteration skips: a string key,
non-empty, whose first character is the `'$'` sigil? -/
def isSigilField (p : Value × Value) : Bool :=
  match p.1 with
  | Value.str sk => (!decide (sk = "")) && decide (sk.front = '$')
  | Value.map _ => false

instance {E A : Type} [DecidableEq E] [DecidableEq A] :
    DecidableEq (Except E A)
  | Except.ok x, Except.ok y =>
    match decEq x y with
    | isTrue h => isTrue (by rw [h])
    | isFalse h => isFalse (by intro hh; cases hh; exact h rfl)
  | Except.ok _, Except.error _ => isFalse (by intro h; cases h)
  | Except.error _, Except.ok _ => isFalse (by intro h; cases h)
  | Except.error x, Except.error y =>
    match decEq x y with
    | isTrue h => isTrue (by rw [h])
    | isFalse h => isFalse (by intro hh; cases hh; exact h rfl)

/-- The fields of the `Point` record of the end-to-end scenario. -/
def pointPairs : List (Value × Value) :=
  [(Value.str "$type", Value.str "noms.StructDef"),
   (Value.str "$name", Value.str "Point"),
   (Value.str "x", Value.str "int32"),
   (Value.str "y", Value.str "int32")]

/-- `NamedRecord{ $name: "Point", fields: {x: Int32, y: Int32} }`. -/
def pointDef : Value := Value.map pointPairs

/-- The final context of a completed `WriteGo` run on `pointDef`. -/
def pointRun : NG :=
  { written := [pointDef], toWrite := [],
    out := [Out.header "user", Out.structT "Point",
            Out.fieldT "Point" "types.Int32" "X" "x",
            Out.fieldT "Point" "types.Int32" "Y" "y"] }

/-- The state produced by `writeStruct` alone on `pointDef` from a fresh
context. -/
def pointStructRun : NG :=
  { written := [], toWrite := [],
    out := [Out.structT "Point",
            Out.fieldT "Point" "types.Int32" "X" "x",
            Out.fieldT "Point" "types.Int32" "Y" "y"] }

/-- A mapping with an unrecognized `$type` discriminator. -/
def badDef : Value :=
  Value.map [(Value.str "$type", Value.str "noms.WeirdDef")]

/-- A record with a field whose name is the empty string. -/
def emptyFieldRec : List (Value × Value) :=
  [(Value.str "$type", Value.str "noms.StructDef"),
   (Value.str "$name", Value.str "B"),
   (Value.str "", Value.str "int32")]

/-! ## Properties -/

theorem depth_pos (v : Value) : 1 ≤ v.depth := by
  cases v <;> simp [Value.depth]

theorem mapGet_depth_le {ps : List (Value × Value)} {key v : Value}
    (h : mapGet ps key = some v) : v.depth ≤ pairsDepth ps := by
  induction ps with
  | nil => simp [mapGet] at h
  | cons p rest ih =>
    obtain ⟨k, w⟩ := p
    rw [mapGet] at h
    by_cases hk : k = key
    · rw [if_pos hk] at h
      cases h
      simp only [pairsDepth]
      omega
    · rw [if_neg hk] at h
      have := ih h
      simp only [pairsDepth]
      omega

/-- Fuel irrelevance: any fuel at least the value's depth computes the same
name. -/
theorem goName_congr : ∀ (f1 f2 : Nat) (v : Value),
    v.depth ≤ f1 → v.depth ≤ f2 → goName f1 v = goName f2 v := by
  intro f1
  induction f1 using Nat.strong_induction_on with
  | _ f1 ih =>
    intro f2 v h1 h2
    cases v with
    | str s => cases f1 <;> cases f2 <;> rfl
    | map ps =>
      have hd : (Value.map ps).depth = 1 + pairsDepth ps := rfl
      rw [hd] at h1 h2
      obtain ⟨f1', rfl⟩ : ∃ k, f1 = k + 1 := ⟨f1 - 1, by omega⟩
      obtain ⟨f2', rfl⟩ : ∃ k, f2 = k + 1 := ⟨f2 - 1, by omega⟩
      have hrec : ∀ c : Value, c.depth ≤ pairsDepth ps →
          goName f1' c = goName f2' c := by
        intro c hc
        have hcp := depth_pos c
        exact ih f1' (by omega) f2' c (by omega) (by omega)
      cases hget : mapGet ps (Value.str "$type") with
      | none => simp only [goName, hget]
      | some tv =>
        cases tv with
        | map _ => simp only [goName, hget]
        | str typ =>
          simp only [goName, hget]
          by_cases hL : typ = "noms.ListDef"
          · rw [if_pos hL, if_pos hL]
            cases he : mapGet ps (Value.str "elem") with
            | none => rfl
            | some e =>
              simp only [Option.some_bind]
              rw [hrec e (mapGet_depth_le he)]
          · rw [if_neg hL, if_neg hL]
            by_cases hM : typ = "noms.MapDef"
            · rw [if_pos hM, if_pos hM]
              cases hk : mapGet ps (Value.str "key") with
              | none => rfl
              | some k =>
                cases hv : mapGet ps (Value.str "value") with
                | none => rfl
                | some v =>
                  simp only [Option.some_bind]
                  rw [hrec k (mapGet_depth_le hk), hrec v (mapGet_depth_le hv)]
            · rw [if_neg hM, if_neg hM]
              by_cases hS : typ = "noms.SetDef"
              · rw [if_pos hS, if_pos hS]
                cases he : mapGet ps (Value.str "elem") with
                | none => rfl
                | some e =>
                  simp only [Option.some_bind]
                  rw [hrec e (mapGet_depth_le he)]
              · rw [if_neg hS, if_neg hS]

theorem StepExt.refl (cs : List Value) (ng : NG) : StepExt cs ng ng :=
  ⟨rfl, fun _ h => h, fun _ h => Or.inl h, fun h => h, ⟨[], by simp⟩⟩

theorem StepExt.weaken {cs cs' : List Value} {ng s : NG}
    (hsub : ∀ u ∈ cs, u ∈ cs') (h : StepExt cs ng s) : StepExt cs' ng s := by
  refine ⟨h.written_eq, h.toWrite_mono, ?_, h.nodup_pres, h.out_ext⟩
  intro u hu
  rcases h.toWrite_new u hu with h1 | ⟨h1, h2, h3⟩
  · exact Or.inl h1
  · exact Or.inr ⟨hsub u h1, h2, h3⟩

theorem StepExt.comp {c1 c2 : List Value} {ng s s' : NG}
    (h1 : StepExt c1 ng s) (h2 : StepExt c2 s s') : StepExt (c1 ++ c2) ng s' := by
  refine ⟨h2.written_eq.trans h1.written_eq, ?_, ?_, ?_, ?_⟩
  · intro u hu
    exact h2.toWrite_mono u (h1.toWrite_mono u hu)
  · intro u hu
    rcases h2.toWrite_new u hu with hh | ⟨hh1, hh2, hh3⟩
    · rcases h1.toWrite_new u hh with g | ⟨g1, g2, g3⟩
      · exact Or.inl g
      · exact Or.inr ⟨by simp [g1], g2, g3⟩
    · rw [h1.written_eq] at hh3
      exact Or.inr ⟨by simp [hh1], hh2, hh3⟩
  · intro hn
    exact h2.nodup_pres (h1.nodup_pres hn)
  · obtain ⟨e1, he1⟩ := h1.out_ext
    obtain ⟨e2, he2⟩ := h2.out_ext
    exact ⟨e1 ++ e2, by rw [he2, he1, List.append_assoc]⟩

theorem mem_setInsert {s : List Value} {v u : Value} :
    u ∈ setInsert s v ↔ u ∈ s ∨ u = v := by
  unfold setInsert
  by_cases hv : v ∈ s
  · rw [if_pos hv]
    constructor
    · exact Or.inl
    · rintro (h | rfl)
      · exact h
      · exact hv
  · rw [if_neg hv]
    simp

theorem setInsert_nodup {s : List Value} {v : Value} (h : s.Nodup) :
    (setInsert s v).Nodup := by
  unfold setInsert
  by_cases hv : v ∈ s
  · rwa [if_pos hv]
  · rw [if_neg hv]
    rw [List.nodup_append]
    refine ⟨h, List.nodup_singleton v, fun a ha hb => ?_⟩
    simp only [List.mem_singleton] at hb
    subst hb
    exact hv ha

theorem mem_setRemove {s : List Value} {v u : Value} :
    u ∈ setRemove s v ↔ u ∈ s ∧ u ≠ v := by
  unfold setRemove
  simp [List.mem_filter]

theorem setRemove_nodup {s : List Value} {v : Value} (h : s.Nodup) :
    (setRemove s v).Nodup := List.Nodup.filter _ h

/-- `addType` is a pure registration: candidate child `val`, no other
change. -/
theorem addType_ext (ng : NG) (val : Value) : StepExt [val] ng (addType ng val) := by
  cases val with
  | str s => exact StepExt.refl _ _
  | map ps =>
    unfold addType
    by_cases hmem : Value.map ps ∈ ng.written ∨ Value.map ps ∈ ng.toWrite
    · rw [if_pos hmem]
      exact StepExt.refl _ _
    · rw [if_neg hmem]
      push_neg at hmem
      refine ⟨rfl, ?_, ?_, ?_, ⟨[], by simp⟩⟩
      · intro u hu
        simp only [mem_setInsert]
        exact Or.inl hu
      · intro u hu
        simp only [mem_setInsert] at hu
        rcases hu with hu | rfl
        · exact Or.inl hu
        · exact Or.inr ⟨by simp, rfl, hmem.1⟩
      · intro hn
        exact setInsert_nodup hn

/-- After `addType`, a mapping value is in one of the two sets. -/
theorem addType_mem {val : Value} (ng : NG) (h : val.isMap = true) :
    val ∈ unionList (addType ng val) := by
  cases val with
  | str s => simp [Value.isMap] at h
  | map ps =>
    unfold addType unionList
    by_cases hmem : Value.map ps ∈ ng.written ∨ Value.map ps ∈ ng.toWrite
    · rw [if_pos hmem]
      simpa using hmem
    · rw [if_neg hmem]
      simp [mem_setInsert]

/-- Rendering a block does not change the sets. -/
theorem emit_ext (ng : NG) (o : Out) (cs : List Value) : StepExt cs ng (emit ng o) :=
  ⟨rfl, fun _ h => h, fun _ h => Or.inl h, fun h => h, ⟨[o], rfl⟩⟩

/-- Membership in the union survives any `StepExt` step. -/
theorem StepExt.union_mono {cs : List Value} {ng s : NG} (h : StepExt cs ng s) :
    ∀ u ∈ unionList ng, u ∈ unionList s := by
  intro u hu
  unfold unionList at hu ⊢
  rcases List.mem_append.mp hu with hw | ht
  · exact List.mem_append.mpr (Or.inl (h.written_eq ▸ hw))
  · exact List.mem_append.mpr (Or.inr (h.toWrite_mono u ht))

/-- Disjointness survives any `StepExt` step. -/
theorem StepExt.disj {cs : List Value} {ng s : NG} (h : StepExt cs ng s)
    (hd : Disj ng) : Disj s := by
  intro u hw ht
  rw [h.written_eq] at hw
  rcases h.toWrite_new u ht with h1 | ⟨_, _, h3⟩
  · exact hd u hw h1
  · exact h3 hw

/-- Context well-formedness survives any `StepExt` step. -/
theorem StepExt.inv {cs : List Value} {ng s : NG} (h : StepExt cs ng s)
    (hi : CtxInv ng) : CtxInv s :=
  ⟨h.written_eq ▸ hi.1, h.nodup_pres hi.2.1, h.disj hi.2.2⟩

theorem writeField_ext (ng : NG) (sn fn : String) (td : Value) :
    StepExt [td] ng (resNG (writeField ng sn fn td)) := by
  unfold writeField
  cases hn : getGoTypeName td with
  | none => exact addType_ext ng td
  | some ft =>
    exact (addType_ext ng td).comp (emit_ext _ _ []) |>.weaken (by simp)

theorem iterFields_ext (sn : String) :
    ∀ (ps : List (Value × Value)) (ng : NG),
      StepExt (fieldVals ps) ng (resNG (iterFields ng sn ps)) := by
  intro ps
  induction ps with
  | nil => intro ng; exact StepExt.refl _ _
  | cons p rest ih =>
    intro ng
    obtain ⟨k, v⟩ := p
    cases k with
    | map mps => exact StepExt.refl _ _
    | str sk =>
      by_cases he : sk = ""
      · subst he
        simp only [iterFields, if_pos rfl]
        have : fieldVals ((Value.str "", v) :: rest) =
            v :: fieldVals rest := by
          simp [fieldVals]
        rw [this]
        exact (StepExt.refl [] ng).weaken (by simp)
      · by_cases hd : sk.front = '$'
        · simp only [iterFields, if_neg he, if_pos hd]
          have : fieldVals ((Value.str sk, v) :: rest) = fieldVals rest := by
            simp [fieldVals, he, hd]
          rw [this]
          exact ih ng
        · simp only [iterFields, if_neg he, if_neg hd]
          have hfv : fieldVals ((Value.str sk, v) :: rest) =
              v :: fieldVals rest := by
            simp [fieldVals, he, hd]
          rw [hfv]
          cases hw : writeField ng sn sk v with
          | ok ng1 =>
            have h1 : StepExt [v] ng ng1 := by
              have := writeField_ext ng sn sk v
              rwa [hw] at this
            exact (h1.comp (ih ng1)).weaken (by intro u; simp)
          | error s =>
            have h1 : StepExt [v] ng s := by
              have := writeField_ext ng sn sk v
              rwa [hw] at this
            exact h1.weaken (by simp)

theorem writeStruct_ext (ng : NG) (ps : List (Value × Value)) :
    StepExt (fieldVals ps) ng (resNG (writeStruct ng (Value.map ps))) := by
  unfold writeStruct
  cases hn : getGoTypeName (Value.map ps) with
  | none => exact StepExt.refl _ _
  | some sn =>
    exact (emit_ext ng (Out.structT sn) []).comp (iterFields_ext sn ps _)
      |>.weaken (by simp)

theorem writeList_ext (ng : NG) (val : Value) :
    StepExt ((val.get (Value.str "elem")).toList) ng
      (resNG (writeList ng val)) := by
  unfold writeList
  cases he : val.get (Value.str "elem") with
  | none => exact StepExt.refl _ _
  | some e =>
    simp only [Option.toList]
    cases h1 : getGoTypeName val with
    | none => exact addType_ext ng e
    | some sn =>
      cases h2 : getGoTypeName e with
      | none => exact addType_ext ng e
      | some en =>
        exact (addType_ext ng e).comp (emit_ext _ _ []) |>.weaken (by simp)

theorem writeSet_ext (ng : NG) (val : Value) :
    StepExt ((val.get (Value.str "elem")).toList) ng
      (resNG (writeSet ng val)) := by
  unfold writeSet
  cases he : val.get (Value.str "elem") with
  | none => exact StepExt.refl _ _
  | some e =>
    simp only [Option.toList]
    cases h1 : getGoTypeName val with
    | none => exact addType_ext ng e
    | some sn =>
      cases h2 : getGoTypeName e with
      | none => exact addType_ext ng e
      | some en =>
        exact (addType_ext ng e).comp (emit_ext _ _ []) |>.weaken (by simp)

theorem writeMap_ext (ng : NG) (val : Value) :
    StepExt ((val.get (Value.str "key")).toList ++
             (val.get (Value.str "value")).toList) ng
      (resNG (writeMap ng val)) := by
  unfold writeMap
  cases hk : val.get (Value.str "key") with
  | none => exact StepExt.refl _ _
  | some k =>
    cases hv : val.get (Value.str "value") with
    | none =>
      simp only [Option.toList]
      exact (addType_ext ng k).weaken (by simp)
    | some v =>
      simp only [Option.toList]
      have base : StepExt [k, v] ng (addType (addType ng k) v) := by
        have := (addType_ext ng k).comp (addType_ext (addType ng k) v)
        exact this.weaken (by simp)
      cases h1 : getGoTypeName val with
      | none => exact base
      | some sn =>
        cases h2 : getGoTypeName k with
        | none => exact base
        | some kn =>
          cases h3 : getGoTypeName v with
          | none => exact base
          | some vn =>
            exact base.comp (emit_ext _ _ []) |>.weaken (by simp)

/-- Any `writeType` dispatch (succeeding or aborting) is a `StepExt` whose
candidate children are exactly the dispatched definition's children. -/
theorem writeType_ext (ng : NG) (val : Value) :
    StepExt (children val) ng (resNG (writeType ng val)) := by
  unfold writeType
  cases val with
  | str s => exact StepExt.refl _ _
  | map ps =>
    show StepExt (children (Value.map ps)) _ _
    cases hget : (Value.map ps).get (Value.str "$type") with
    | none =>
      simp only [children]
      rw [show mapGet ps (Value.str "$type") = none from hget]
      exact StepExt.refl _ _
    | some tv =>
      have hget' : mapGet ps (Value.str "$type") = some tv := hget
      cases tv with
      | map m =>
        simp only [children, hget']
        exact StepExt.refl _ _
      | str typ =>
        simp only [children, hget']
        by_cases hL : typ = "noms.ListDef"
        · rw [if_pos hL, if_pos hL]
          exact writeList_ext ng (Value.map ps)
        · rw [if_neg hL, if_neg hL]
          by_cases hM : typ = "noms.MapDef"
          · rw [if_pos hM, if_pos hM]
            exact writeMap_ext ng (Value.map ps)
          · rw [if_neg hM, if_neg hM]
            by_cases hS : typ = "noms.SetDef"
            · rw [if_pos hS, if_pos hS]
              exact writeSet_ext ng (Value.map ps)
            · rw [if_neg hS, if_neg hS]
              by_cases hT : typ = "noms.StructDef"
              · rw [if_pos hT, if_pos hT]
                exact writeStruct_ext ng ps
              · rw [if_neg hT, if_neg hT]
                exact StepExt.refl _ _

theorem writeField_ok_mem {ng s1 : NG} {sn fn : String} {td : Value}
    (h : writeField ng sn fn td = Except.ok s1) (hm : td.isMap = true) :
    td ∈ unionList s1 := by
  unfold writeField at h
  cases hn : getGoTypeName td with
  | none => rw [hn] at h; cases h
  | some ft =>
    rw [hn] at h
    cases h
    exact (emit_ext (addType ng td) _ []).union_mono td (addType_mem ng hm)

theorem iterFields_ok_children {sn : String} :
    ∀ {ps : List (Value × Value)} {ng s' : NG},
      iterFields ng sn ps = Except.ok s' →
      ∀ c ∈ fieldVals ps, c.isMap = true → c ∈ unionList s' := by
  intro ps
  induction ps with
  | nil => intro ng s' h c hc; simp [fieldVals] at hc
  | cons p rest ih =>
    intro ng s' h c hc hm
    obtain ⟨k, v⟩ := p
    cases k with
    | map mps => cases h
    | str sk =>
      by_cases he : sk = ""
      · subst he
        simp only [iterFields, if_pos rfl] at h
        cases h
      · by_cases hd : sk.front = '$'
        · simp only [iterFields, if_neg he, if_pos hd] at h
          have : fieldVals ((Value.str sk, v) :: rest) = fieldVals rest := by
            simp [fieldVals, he, hd]
          rw [this] at hc
          exact ih h c hc hm
        · simp only [iterFields, if_neg he, if_neg hd] at h
          have hfv : fieldVals ((Value.str sk, v) :: rest) =
              v :: fieldVals rest := by
            simp [fieldVals, he, hd]
          rw [hfv] at hc
          cases hw : writeField ng sn sk v with
          | error s => simp only [hw] at h; cases h
          | ok ng1 =>
            simp only [hw] at h
            rcases List.mem_cons.mp hc with rfl | hc2
            · have hmem := writeField_ok_mem hw hm
              have hext : StepExt (fieldVals rest) ng1
                  (resNG (iterFields ng1 sn rest)) :=
                iterFields_ext sn rest ng1
              rw [h] at hext
              exact hext.union_mono c hmem
            · exact ih h c hc2 hm

theorem writeStruct_ok_children {ng s' : NG} {ps : List (Value × Value)}
    (h : writeStruct ng (Value.map ps) = Except.ok s') :
    ∀ c ∈ fieldVals ps, c.isMap = true → c ∈ unionList s' := by
  unfold writeStruct at h
  cases hn : getGoTypeName (Value.map ps) with
  | none => rw [hn] at h; cases h
  | some sn =>
    rw [hn] at h
    exact fun c hc hm => iterFields_ok_children h c hc hm

theorem writeList_ok_children {ng s' : NG} {val : Value}
    (h : writeList ng val = Except.ok s') :
    ∀ c ∈ (val.get (Value.str "elem")).toList, c.isMap = true →
      c ∈ unionList s' := by
  unfold writeList at h
  cases he : val.get (Value.str "elem") with
  | none => rw [he] at h; cases h
  | some e =>
    simp only [he] at h
    intro c hc hm
    simp only [Option.toList, List.mem_singleton] at hc
    subst hc
    cases h1 : getGoTypeName val with
    | none => simp only [h1] at h; cases h
    | some sn =>
      cases h2 : getGoTypeName c with
      | none => simp only [h1, h2] at h; cases h
      | some en =>
        simp only [h1, h2, Except.ok.injEq] at h
        subst h
        exact (emit_ext (addType ng c) _ []).union_mono c (addType_mem ng hm)

theorem writeSet_ok_children {ng s' : NG} {val : Value}
    (h : writeSet ng val = Except.ok s') :
    ∀ c ∈ (val.get (Value.str "elem")).toList, c.isMap = true →
      c ∈ unionList s' := by
  unfold writeSet at h
  cases he : val.get (Value.str "elem") with
  | none => rw [he] at h; cases h
  | some e =>
    simp only [he] at h
    intro c hc hm
    simp only [Option.toList, List.mem_singleton] at hc
    subst hc
    cases h1 : getGoTypeName val with
    | none => simp only [h1] at h; cases h
    | some sn =>
      cases h2 : getGoTypeName c with
      | none => simp only [h1, h2] at h; cases h
      | some en =>
        simp only [h1, h2, Except.ok.injEq] at h
        subst h
        exact (emit_ext (addType ng c) _ []).union_mono c (addType_mem ng hm)

theorem writeMap_ok_children {ng s' : NG} {val : Value}
    (h : writeMap ng val = Except.ok s') :
    ∀ c ∈ ((val.get (Value.str "key")).toList ++
           (val.get (Value.str "value")).toList), c.isMap = true →
      c ∈ unionList s' := by
  unfold writeMap at h
  cases hk : val.get (Value.str "key") with
  | none => rw [hk] at h; cases h
  | some k =>
    simp only [hk] at h
    cases hv : val.get (Value.str "value") with
    | none => simp only [hv] at h; cases h
    | some v =>
      simp only [hv] at h
      intro c hc hm
      cases h1 : getGoTypeName val with
      | none => simp only [h1] at h; cases h
      | some sn =>
        cases h2 : getGoTypeName k with
        | none => simp only [h1, h2] at h; cases h
        | some kn =>
          cases h3 : getGoTypeName v with
          | none => simp only [h1, h2, h3] at h; cases h
          | some vn =>
            simp only [h1, h2, h3, Except.ok.injEq] at h
            subst h
            simp only [hk, hv, Option.toList, List.cons_append,
              List.nil_append, List.mem_cons, List.mem_singleton,
              List.not_mem_nil, or_false] at hc
            rcases hc with rfl | rfl
            · have hk1 : c ∈ unionList (addType ng c) := addType_mem ng hm
              have hk2 := (addType_ext (addType ng c) v).union_mono c hk1
              exact (emit_ext _ _ []).union_mono c hk2
            · have hv1 : c ∈ unionList (addType (addType ng k) c) :=
                addType_mem (addType ng k) hm
              exact (emit_ext _ _ []).union_mono c hv1

/-- A successful dispatch registers every child of the dispatched
definition: afterwards each (non-primitive) child is in one of the two
sets. -/
theorem writeType_ok_children {ng s' : NG} {val : Value}
    (h : writeType ng val = Except.ok s') :
    ∀ c ∈ children val, c.isMap = true → c ∈ unionList s' := by
  unfold writeType at h
  cases val with
  | str s => cases h
  | map ps =>
    cases hget : mapGet ps (Value.str "$type") with
    | none =>
      simp only [Value.get, hget] at h
      cases h
    | some tv =>
      cases tv with
      | map m => simp only [Value.get, hget] at h; cases h
      | str typ =>
        simp only [Value.get, hget] at h
        simp only [children, hget]
        by_cases hL : typ = "noms.ListDef"
        · rw [if_pos hL] at h
          rw [if_pos hL]
          exact writeList_ok_children h
        · rw [if_neg hL] at h
          rw [if_neg hL]
          by_cases hM : typ = "noms.MapDef"
          · rw [if_pos hM] at h
            rw [if_pos hM]
            exact writeMap_ok_children h
          · rw [if_neg hM] at h
            rw [if_neg hM]
            by_cases hS : typ = "noms.SetDef"
            · rw [if_pos hS] at h
              rw [if_pos hS]
              exact writeSet_ok_children h
            · rw [if_neg hS] at h
              rw [if_neg hS]
              by_cases hT : typ = "noms.StructDef"
              · rw [if_pos hT] at h
                rw [if_pos hT]
                exact writeStruct_ok_children h
              · rw [if_neg hT] at h
                cases h

theorem StepExt.union_new {cs : List Value} {ng s : NG} (h : StepExt cs ng s) :
    ∀ u ∈ unionList s, u ∈ unionList ng ∨ (u ∈ cs ∧ u.isMap = true) := by
  intro u hu
  unfold unionList at hu ⊢
  rcases List.mem_append.mp hu with hw | ht
  · exact Or.inl (List.mem_append.mpr (Or.inl (h.written_eq ▸ hw)))
  · rcases h.toWrite_new u ht with h1 | ⟨h1, h2, _⟩
    · exact Or.inl (List.mem_append.mpr (Or.inr h1))
    · exact Or.inr ⟨h1, h2⟩

theorem popMark_disj {ng : NG} {t : Value} (hd : Disj ng) :
    Disj (popMark ng t) := by
  intro v hw ht
  simp only [popMark] at hw ht
  rcases mem_setInsert.mp hw with hw1 | rfl
  · exact hd v hw1 (mem_setRemove.mp ht).1
  · exact (mem_setRemove.mp ht).2 rfl

theorem popMark_inv {ng : NG} {t : Value} (hi : CtxInv ng) :
    CtxInv (popMark ng t) :=
  ⟨setInsert_nodup hi.1, setRemove_nodup hi.2.1, popMark_disj hi.2.2⟩

theorem popMark_union {ng : NG} {t : Value} (ht : t ∈ ng.toWrite) :
    ∀ u ∈ unionList ng, u ∈ unionList (popMark ng t) := by
  intro u hu
  simp only [unionList, popMark, List.mem_append] at hu ⊢
  rcases hu with hw | htw
  · exact Or.inl (mem_setInsert.mpr (Or.inl hw))
  · by_cases he : u = t
    · subst he
      exact Or.inl (mem_setInsert.mpr (Or.inr rfl))
    · exact Or.inr (mem_setRemove.mpr ⟨htw, he⟩)

theorem popMark_union_rev {ng : NG} {t : Value} (ht : t ∈ ng.toWrite) :
    ∀ u ∈ unionList (popMark ng t), u ∈ unionList ng := by
  intro u hu
  simp only [unionList, popMark, List.mem_append] at hu ⊢
  rcases hu with hw | htw
  · rcases mem_setInsert.mp hw with hw1 | rfl
    · exact Or.inl hw1
    · exact Or.inr ht
  · exact Or.inr (mem_setRemove.mp htw).1

theorem runLoop_nil {fuel : Nat} {ng : NG} (h : ng.toWrite = []) :
    runLoop fuel ng = RunRes.done ng := by
  rw [runLoop, h]

theorem runLoop_zero {ng : NG} {t : Value} {rest : List Value}
    (h : ng.toWrite = t :: rest) : runLoop 0 ng = RunRes.outOfFuel ng := by
  rw [runLoop, h]

theorem runLoop_succ {fuel : Nat} {ng : NG} {t : Value} {rest : List Value}
    (h : ng.toWrite = t :: rest) :
    runLoop (fuel + 1) ng =
      match writeType (popMark ng t) t with
      | Except.ok ng2 => runLoop fuel ng2
      | Except.error s => RunRes.failed s := by
  rw [runLoop, h]

/-- Disjointness, well-formedness and union membership are preserved by the
whole work-list loop (at every intermediate point: a truncated fuel returns
the intermediate state). -/
theorem runLoop_basic : ∀ (fuel : Nat) (ng : NG),
    (Disj ng → Disj ((runLoop fuel ng).state)) ∧
    (CtxInv ng → CtxInv ((runLoop fuel ng).state)) ∧
    (∀ u ∈ unionList ng, u ∈ unionList ((runLoop fuel ng).state)) := by
  intro fuel
  induction fuel with
  | zero =>
    intro ng
    cases ht : ng.toWrite with
    | nil => rw [runLoop_nil ht]; exact ⟨id, id, fun _ h => h⟩
    | cons t rest => rw [runLoop_zero ht]; exact ⟨id, id, fun _ h => h⟩
  | succ fuel' ih =>
    intro ng
    cases ht : ng.toWrite with
    | nil => rw [runLoop_nil ht]; exact ⟨id, id, fun _ h => h⟩
    | cons t rest =>
      have htw : t ∈ ng.toWrite := by rw [ht]; exact List.mem_cons_self t rest
      rw [runLoop_succ ht]
      have hstep := writeType_ext (popMark ng t) t
      cases hw : writeType (popMark ng t) t with
      | ok ng2 =>
        rw [hw] at hstep
        refine ⟨?_, ?_, ?_⟩
        · intro hd
          exact (ih ng2).1 (hstep.disj (popMark_disj hd))
        · intro hi
          exact (ih ng2).2.1 (hstep.inv (popMark_inv hi))
        · intro u hu
          exact (ih ng2).2.2 u
            (hstep.union_mono u (popMark_union htw u hu))
      | error s =>
        rw [hw] at hstep
        refine ⟨?_, ?_, ?_⟩
        · intro hd
          exact hstep.disj (popMark_disj hd)
        · intro hi
          exact hstep.inv (popMark_inv hi)
        · intro u hu
          exact hstep.union_mono u (popMark_union htw u hu)

/-- A completed drain (`done`) empties `toWrite`, keeps the closure of
`written` under children, and has absorbed the whole starting union into
`written`. -/
theorem runLoop_done : ∀ (fuel : Nat) (ng : NG) (s' : NG),
    CtxInv ng → ClosedS ng → runLoop fuel ng = RunRes.done s' →
    ClosedS s' ∧ s'.toWrite = [] ∧ ∀ u ∈ unionList ng, u ∈ s'.written := by
  intro fuel
  induction fuel with
  | zero =>
    intro ng s' hi hc hr
    cases ht : ng.toWrite with
    | nil =>
      rw [runLoop_nil ht] at hr
      cases hr
      refine ⟨hc, ht, ?_⟩
      intro u hu
      unfold unionList at hu
      rw [ht] at hu
      simpa using hu
    | cons t rest =>
      rw [runLoop_zero ht] at hr
      cases hr
  | succ fuel' ih =>
    intro ng s' hi hc hr
    cases ht : ng.toWrite with
    | nil =>
      rw [runLoop_nil ht] at hr
      cases hr
      refine ⟨hc, ht, ?_⟩
      intro u hu
      unfold unionList at hu
      rw [ht] at hu
      simpa using hu
    | cons t rest =>
      have htw : t ∈ ng.toWrite := by rw [ht]; exact List.mem_cons_self t rest
      rw [runLoop_succ ht] at hr
      cases hw : writeType (popMark ng t) t with
      | error s => rw [hw] at hr; cases hr
      | ok ng2 =>
        rw [hw] at hr
        have hstep : StepExt (children t) (popMark ng t) ng2 := by
          have := writeType_ext (popMark ng t) t
          rwa [hw] at this
        have hinv2 : CtxInv ng2 := hstep.inv (popMark_inv hi)
        have hclosed2 : ClosedS ng2 := by
          intro u hu c hcc hcm
          have hwr : ng2.written = setInsert ng.written t := hstep.written_eq
          rw [hwr] at hu
          rcases mem_setInsert.mp hu with hu1 | rfl
          · have h1 : c ∈ unionList ng := hc u hu1 c hcc hcm
            exact hstep.union_mono c (popMark_union htw c h1)
          · exact writeType_ok_children hw c hcc hcm
        obtain ⟨h1, h2, h3⟩ := ih ng2 s' hinv2 hclosed2 hr
        refine ⟨h1, h2, ?_⟩
        intro u hu
        exact h3 u (hstep.union_mono u (popMark_union htw u hu))

theorem runLoop_rinv : ∀ (fuel : Nat) (ng : NG) (root : Value),
    RInv root ng → RInv root ((runLoop fuel ng).state) := by
  intro fuel
  induction fuel with
  | zero =>
    intro ng root hr
    cases ht : ng.toWrite with
    | nil => rw [runLoop_nil ht]; exact hr
    | cons t rest => rw [runLoop_zero ht]; exact hr
  | succ fuel' ih =>
    intro ng root hr
    cases ht : ng.toWrite with
    | nil => rw [runLoop_nil ht]; exact hr
    | cons t rest =>
      have htw : t ∈ ng.toWrite := by rw [ht]; exact List.mem_cons_self t rest
      have htu : t ∈ unionList ng := by
        unfold unionList
        exact List.mem_append.mpr (Or.inr htw)
      rw [runLoop_succ ht]
      have hstep := writeType_ext (popMark ng t) t
      have h2 : ∀ s2 : NG, StepExt (children t) (popMark ng t) s2 →
          RInv root s2 := by
        intro s2 hs2 u hu
        rcases hs2.union_new u hu with h1 | ⟨h1, h2⟩
        · exact hr u (popMark_union_rev htw u h1)
        · exact ⟨Reaches.step (hr t htu).1 h1, h2⟩
      cases hw : writeType (popMark ng t) t with
      | ok ng2 =>
        rw [hw] at hstep
        exact ih ng2 root (h2 ng2 hstep)
      | error s =>
        rw [hw] at hstep
        exact h2 s hstep

theorem addType_out (ng : NG) (v : Value) : (addType ng v).out = ng.out := by
  cases v with
  | str s => rfl
  | map ps =>
    unfold addType
    by_cases h : Value.map ps ∈ ng.written ∨ Value.map ps ∈ ng.toWrite
    · rw [if_pos h]
    · rw [if_neg h]

theorem typeCount_append (a b : List Out) :
    typeCount (a ++ b) = typeCount a + typeCount b :=
  List.countP_append _ _ _

theorem iterFields_count {sn : String} :
    ∀ (ps : List (Value × Value)) (ng : NG),
      typeCount (resNG (iterFields ng sn ps)).out = typeCount ng.out := by
  intro ps
  induction ps with
  | nil => intro ng; rfl
  | cons p rest ih =>
    intro ng
    obtain ⟨k, v⟩ := p
    cases k with
    | map mps => rfl
    | str sk =>
      by_cases he : sk = ""
      · subst he
        simp only [iterFields, if_pos rfl]
        rfl
      · by_cases hd : sk.front = '$'
        · simp only [iterFields, if_neg he, if_pos hd]
          exact ih ng
        · simp only [iterFields, if_neg he, if_neg hd]
          cases hw : writeField ng sn sk v with
          | error s =>
            simp only [hw]
            show typeCount s.out = typeCount ng.out
            unfold writeField at hw
            cases hn : getGoTypeName v with
            | none =>
              rw [hn] at hw
              cases hw
              show typeCount (addType ng v).out = typeCount ng.out
              rw [addType_out]
            | some ft => rw [hn] at hw; cases hw
          | ok ng1 =>
            simp only [hw]
            have h1 : typeCount ng1.out = typeCount ng.out := by
              unfold writeField at hw
              cases hn : getGoTypeName v with
              | none => rw [hn] at hw; cases hw
              | some ft =>
                rw [hn] at hw
                cases hw
                show typeCount (emit (addType ng v) _).out = typeCount ng.out
                unfold emit
                simp only [typeCount_append, addType_out]
                rfl
            have := ih ng1
            rw [h1] at this
            exact this

theorem writeType_ok_count {ng s' : NG} {val : Value}
    (h : writeType ng val = Except.ok s') :
    typeCount s'.out = typeCount ng.out + 1 := by
  unfold writeType at h
  cases val with
  | str s => cases h
  | map ps =>
    cases hget : mapGet ps (Value.str "$type") with
    | none => simp only [Value.get, hget] at h; cases h
    | some tv =>
      cases tv with
      | map m => simp only [Value.get, hget] at h; cases h
      | str typ =>
        simp only [Value.get, hget] at h
        by_cases hL : typ = "noms.ListDef"
        · rw [if_pos hL] at h
          unfold writeList at h
          cases he : (Value.map ps).get (Value.str "elem") with
          | none => rw [he] at h; cases h
          | some e =>
            simp only [he] at h
            cases h1 : getGoTypeName (Value.map ps) with
            | none => simp only [h1] at h; cases h
            | some sn =>
              cases h2 : getGoTypeName e with
              | none => simp only [h1, h2] at h; cases h
              | some en =>
                simp only [h1, h2, Except.ok.injEq] at h
                subst h
                show typeCount ((emit (addType ng e) _).out) = _
                unfold emit
                simp only [typeCount_append, addType_out]
                rfl
        · rw [if_neg hL] at h
          by_cases hM : typ = "noms.MapDef"
          · rw [if_pos hM] at h
            unfold writeMap at h
            cases hk : (Value.map ps).get (Value.str "key") with
            | none => rw [hk] at h; cases h
            | some k =>
              simp only [hk] at h
              cases hv : (Value.map ps).get (Value.str "value") with
              | none => simp only [hv] at h; cases h
              | some v =>
                simp only [hv] at h
                cases h1 : getGoTypeName (Value.map ps) with
                | none => simp only [h1] at h; cases h
                | some sn =>
                  cases h2 : getGoTypeName k with
                  | none => simp only [h1, h2] at h; cases h
                  | some kn =>
                    cases h3 : getGoTypeName v with
                    | none => simp only [h1, h2, h3] at h; cases h
                    | some vn =>
                      simp only [h1, h2, h3, Except.ok.injEq] at h
                      subst h
                      show typeCount ((emit (addType (addType ng k) v) _).out) = _
                      unfold emit
                      simp only [typeCount_append, addType_out]
                      rfl
          · rw [if_neg hM] at h
            by_cases hS : typ = "noms.SetDef"
            · rw [if_pos hS] at h
              unfold writeSet at h
              cases he : (Value.map ps).get (Value.str "elem") with
              | none => rw [he] at h; cases h
              | some e =>
                simp only [he] at h
                cases h1 : getGoTypeName (Value.map ps) with
                | none => simp only [h1] at h; cases h
                | some sn =>
                  cases h2 : getGoTypeName e with
                  | none => simp only [h1, h2] at h; cases h
                  | some en =>
                    simp only [h1, h2, Except.ok.injEq] at h
                    subst h
                    show typeCount ((emit (addType ng e) _).out) = _
                    unfold emit
                    simp only [typeCount_append, addType_out]
                    rfl
            · rw [if_neg hS] at h
              by_cases hT : typ = "noms.StructDef"
              · rw [if_pos hT] at h
                unfold writeStruct at h
                cases hn : getGoTypeName (Value.map ps) with
                | none => rw [hn] at h; cases h
                | some sn =>
                  simp only [hn] at h
                  have := @iterFields_count sn ps (emit ng (Out.structT sn))
                  rw [h] at this
                  have h2 : typeCount s'.out =
                      typeCount (emit ng (Out.structT sn)).out := this
                  rw [h2]
                  unfold emit
                  simp only [typeCount_append]
                  rfl
              · rw [if_neg hT] at h
                cases h

theorem setInsert_length {s : List Value} {v : Value} (h : v ∉ s) :
    (setInsert s v).length = s.length + 1 := by
  unfold setInsert
  rw [if_neg h]
  simp

theorem popMark_out (ng : NG) (t : Value) : (popMark ng t).out = ng.out := rfl

/-- On a completed drain, the loop has appended exactly one per-type block
per element added to `written`. -/
theorem runLoop_count : ∀ (fuel : Nat) (ng : NG) (s' : NG),
    CtxInv ng → runLoop fuel ng = RunRes.done s' →
    typeCount s'.out + ng.written.length =
      typeCount ng.out + s'.written.length := by
  intro fuel
  induction fuel with
  | zero =>
    intro ng s' hi hr
    cases ht : ng.toWrite with
    | nil => rw [runLoop_nil ht] at hr; cases hr; omega
    | cons t rest => rw [runLoop_zero ht] at hr; cases hr
  | succ fuel' ih =>
    intro ng s' hi hr
    cases ht : ng.toWrite with
    | nil => rw [runLoop_nil ht] at hr; cases hr; omega
    | cons t rest =>
      have htw : t ∈ ng.toWrite := by rw [ht]; exact List.mem_cons_self t rest
      have htnw : t ∉ ng.written := fun hin => hi.2.2 t hin htw
      rw [runLoop_succ ht] at hr
      cases hw : writeType (popMark ng t) t with
      | error s => rw [hw] at hr; cases hr
      | ok ng2 =>
        rw [hw] at hr
        have hstep : StepExt (children t) (popMark ng t) ng2 := by
          have := writeType_ext (popMark ng t) t
          rwa [hw] at this
        have hinv2 : CtxInv ng2 := hstep.inv (popMark_inv hi)
        have hcount : typeCount ng2.out = typeCount ng.out + 1 := by
          have := writeType_ok_count hw
          rwa [popMark_out] at this
        have hlen : ng2.written.length = ng.written.length + 1 := by
          rw [hstep.written_eq]
          show (setInsert ng.written t).length = _
          exact setInsert_length htnw
        have := ih ng2 s' hinv2 hr
        omega

theorem nodup_subset_length {l S : List Value} (hn : l.Nodup)
    (hsub : ∀ u ∈ l, u ∈ S) : l.length ≤ S.length :=
  (hn.subperm hsub).length_le

/-- Fuel sufficiency: with any children-closed, duplicate-free catalogue `S`
covering the current union, `S.length` bounds the remaining iterations, so
the loop never runs out of fuel. -/
theorem runLoop_fuel : ∀ (fuel : Nat) (S : List Value) (ng : NG),
    S.Nodup →
    (∀ t ∈ S, ∀ c ∈ children t, c.isMap = true → c ∈ S) →
    CtxInv ng →
    (∀ u ∈ unionList ng, u ∈ S) →
    S.length ≤ fuel + ng.written.length →
    ∀ s, runLoop fuel ng ≠ RunRes.outOfFuel s := by
  intro fuel
  induction fuel with
  | zero =>
    intro S ng hSn hSc hi hsub hlen s
    cases ht : ng.toWrite with
    | nil => rw [runLoop_nil ht]; intro hh; cases hh
    | cons t rest =>
      exfalso
      have htw : t ∈ ng.toWrite := by rw [ht]; exact List.mem_cons_self t rest
      have htnw : t ∉ ng.written := fun hin => hi.2.2 t hin htw
      have hnodup : (t :: ng.written).Nodup := by
        rw [List.nodup_cons]
        exact ⟨htnw, hi.1⟩
      have hsub2 : ∀ u ∈ t :: ng.written, u ∈ S := by
        intro u hu
        rcases List.mem_cons.mp hu with rfl | hu2
        · exact hsub u (List.mem_append.mpr (Or.inr htw))
        · exact hsub u (List.mem_append.mpr (Or.inl hu2))
      have := nodup_subset_length hnodup hsub2
      simp only [List.length_cons] at this
      omega
  | succ fuel' ih =>
    intro S ng hSn hSc hi hsub hlen s
    cases ht : ng.toWrite with
    | nil => rw [runLoop_nil ht]; intro hh; cases hh
    | cons t rest =>
      have htw : t ∈ ng.toWrite := by rw [ht]; exact List.mem_cons_self t rest
      have htnw : t ∉ ng.written := fun hin => hi.2.2 t hin htw
      have htS : t ∈ S := hsub t (List.mem_append.mpr (Or.inr htw))
      rw [runLoop_succ ht]
      cases hw : writeType (popMark ng t) t with
      | error s2 => intro hh; cases hh
      | ok ng2 =>
        have hstep : StepExt (children t) (popMark ng t) ng2 := by
          have := writeType_ext (popMark ng t) t
          rwa [hw] at this
        have hinv2 : CtxInv ng2 := hstep.inv (popMark_inv hi)
        have hsub2 : ∀ u ∈ unionList ng2, u ∈ S := by
          intro u hu
          rcases hstep.union_new u hu with h1 | ⟨h1, h2⟩
          · exact hsub u (popMark_union_rev htw u h1)
          · exact hSc t htS u h1 h2
        have hlen2 : S.length ≤ fuel' + ng2.written.length := by
          have : ng2.written.length = ng.written.length + 1 := by
            rw [hstep.written_eq]
            show (setInsert ng.written t).length = _
            exact setInsert_length htnw
          omega
        exact ih S ng2 hSn hSc hinv2 hsub2 hlen2 s

theorem self_mem_subValues (v : Value) : v ∈ subValues v := by
  cases v with
  | str s => simp [subValues]
  | map ps => simp [subValues]

theorem mapGet_mem_subPairs {ps : List (Value × Value)} {key v : Value}
    (h : mapGet ps key = some v) : v ∈ subPairs ps := by
  induction ps with
  | nil => simp [mapGet] at h
  | cons p rest ih =>
    obtain ⟨k, w⟩ := p
    rw [mapGet] at h
    by_cases hk : k = key
    · rw [if_pos hk] at h
      cases h
      simp only [subPairs, List.mem_append]
      exact Or.inl (Or.inr (self_mem_subValues v))
    · rw [if_neg hk] at h
      simp only [subPairs, List.mem_append]
      exact Or.inr (ih h)

theorem fieldVals_mem_subPairs {ps : List (Value × Value)} {v : Value}
    (h : v ∈ fieldVals ps) : v ∈ subPairs ps := by
  induction ps with
  | nil => simp [fieldVals] at h
  | cons p rest ih =>
    obtain ⟨k, w⟩ := p
    cases k with
    | map mps =>
      simp only [fieldVals] at h
      simp only [subPairs, List.mem_append]
      exact Or.inr (ih h)
    | str sk =>
      simp only [fieldVals] at h
      by_cases hs : sk ≠ "" ∧ sk.front = '$'
      · rw [if_pos hs] at h
        simp only [subPairs, List.mem_append]
        exact Or.inr (ih h)
      · rw [if_neg hs] at h
        rcases List.mem_cons.mp h with rfl | h2
        · simp only [subPairs, List.mem_append]
          exact Or.inl (Or.inr (self_mem_subValues v))
        · simp only [subPairs, List.mem_append]
          exact Or.inr (ih h2)

theorem children_mem_subValues {v c : Value} (h : c ∈ children v) :
    c ∈ subValues v := by
  cases v with
  | str s => simp [children] at h
  | map ps =>
    have hsp : c ∈ subPairs ps → c ∈ subValues (Value.map ps) := by
      intro hh
      simp only [subValues, List.mem_cons]
      exact Or.inr hh
    simp only [children] at h
    cases hget : mapGet ps (Value.str "$type") with
    | none => rw [hget] at h; simp at h
    | some tv =>
      cases tv with
      | map m => simp only [hget] at h; simp at h
      | str typ =>
        simp only [hget] at h
        by_cases hL : typ = "noms.ListDef"
        · rw [if_pos hL] at h
          cases he : mapGet ps (Value.str "elem") with
          | none => rw [he] at h; simp at h
          | some e =>
            rw [he] at h
            simp only [Option.toList, List.mem_singleton] at h
            subst h
            exact hsp (mapGet_mem_subPairs he)
        · rw [if_neg hL] at h
          by_cases hM : typ = "noms.MapDef"
          · rw [if_pos hM] at h
            rcases List.mem_append.mp h with h1 | h1
            · cases hk : mapGet ps (Value.str "key") with
              | none => rw [hk] at h1; simp at h1
              | some k =>
                rw [hk] at h1
                simp only [Option.toList, List.mem_singleton] at h1
                subst h1
                exact hsp (mapGet_mem_subPairs hk)
            · cases hv : mapGet ps (Value.str "value") with
              | none => rw [hv] at h1; simp at h1
              | some w =>
                rw [hv] at h1
                simp only [Option.toList, List.mem_singleton] at h1
                subst h1
                exact hsp (mapGet_mem_subPairs hv)
          · rw [if_neg hM] at h
            by_cases hS : typ = "noms.SetDef"
            · rw [if_pos hS] at h
              cases he : mapGet ps (Value.str "elem") with
              | none => rw [he] at h; simp at h
              | some e =>
                rw [he] at h
                simp only [Option.toList, List.mem_singleton] at h
                subst h
                exact hsp (mapGet_mem_subPairs he)
            · rw [if_neg hS] at h
              by_cases hT : typ = "noms.StructDef"
              · rw [if_pos hT] at h
                exact hsp (fieldVals_mem_subPairs h)
              · rw [if_neg hT] at h
                simp at h

theorem mem_subPairs_split {ps : List (Value × Value)} {u : Value}
    (h : u ∈ subPairs ps) :
    ∃ k w, (k, w) ∈ ps ∧ (u ∈ subValues k ∨ u ∈ subValues w) := by
  induction ps with
  | nil => simp [subPairs] at h
  | cons p rest ih =>
    obtain ⟨k, w⟩ := p
    simp only [subPairs, List.mem_append] at h
    rcases h with (h1 | h1) | h1
    · exact ⟨k, w, List.mem_cons_self _ _, Or.inl h1⟩
    · exact ⟨k, w, List.mem_cons_self _ _, Or.inr h1⟩
    · obtain ⟨k2, w2, hm, hor⟩ := ih h1
      exact ⟨k2, w2, List.mem_cons_of_mem _ hm, hor⟩

theorem pair_sub_subPairs {ps : List (Value × Value)} {k w : Value}
    (h : (k, w) ∈ ps) :
    (∀ u ∈ subValues k, u ∈ subPairs ps) ∧
    (∀ u ∈ subValues w, u ∈ subPairs ps) := by
  induction ps with
  | nil => simp at h
  | cons p rest ih =>
    obtain ⟨k2, w2⟩ := p
    rcases List.mem_cons.mp h with heq | h2
    · injection heq with e1 e2
      subst e1; subst e2
      constructor
      · intro u hu
        simp only [subPairs, List.mem_append]
        exact Or.inl (Or.inl hu)
      · intro u hu
        simp only [subPairs, List.mem_append]
        exact Or.inl (Or.inr hu)
    · obtain ⟨ih1, ih2⟩ := ih h2
      constructor
      · intro u hu
        simp only [subPairs, List.mem_append]
        exact Or.inr (ih1 u hu)
      · intro u hu
        simp only [subPairs, List.mem_append]
        exact Or.inr (ih2 u hu)

theorem pair_mem_depth {ps : List (Value × Value)} {k w : Value}
    (h : (k, w) ∈ ps) :
    k.depth ≤ pairsDepth ps ∧ w.depth ≤ pairsDepth ps := by
  induction ps with
  | nil => simp at h
  | cons p rest ih =>
    obtain ⟨k2, w2⟩ := p
    rcases List.mem_cons.mp h with heq | h2
    · injection heq with e1 e2
      subst e1; subst e2
      simp only [pairsDepth]
      omega
    · obtain ⟨ih1, ih2⟩ := ih h2
      simp only [pairsDepth]
      omega

/-- Structural containment is transitive. -/
theorem subValues_trans : ∀ (v c : Value), c ∈ subValues v →
    ∀ d ∈ subValues c, d ∈ subValues v := by
  have main : ∀ (n : Nat) (v c : Value), v.depth ≤ n → c ∈ subValues v →
      ∀ d ∈ subValues c, d ∈ subValues v := by
    intro n
    induction n with
    | zero =>
      intro v c hd
      have := depth_pos v
      omega
    | succ n ih =>
      intro v c hd hc d hdc
      cases v with
      | str s =>
        simp only [subValues, List.mem_singleton] at hc
        subst hc
        exact hdc
      | map ps =>
        have hdep : (Value.map ps).depth = 1 + pairsDepth ps := rfl
        simp only [subValues, List.mem_cons] at hc
        rcases hc with rfl | hc2
        · exact hdc
        · obtain ⟨k, w, hmem, hor⟩ := mem_subPairs_split hc2
          have hdep2 := pair_mem_depth hmem
          simp only [subValues, List.mem_cons]
          rcases hor with hk | hw
          · have : d ∈ subValues k :=
              ih k c (by rw [hdep] at hd; omega) hk d hdc
            exact Or.inr ((pair_sub_subPairs hmem).1 d this)
          · have : d ∈ subValues w :=
              ih w c (by rw [hdep] at hd; omega) hw d hdc
            exact Or.inr ((pair_sub_subPairs hmem).2 d this)
  intro v c hc d hdc
  exact main v.depth v c (Nat.le_refl _) hc d hdc

/-- Everything reachable from the root is structurally contained in it. -/
theorem reaches_mem_subValues {root t : Value} (h : Reaches root t) :
    t ∈ subValues root := by
  induction h with
  | refl => exact self_mem_subValues root
  | step hr hc ih =>
    exact subValues_trans root _ ih _ (children_mem_subValues hc)

theorem fuelBound_eq (root : Value) : fuelBound root = (mapSubs root).length :=
  rfl

theorem mem_mapSubs {root u : Value} :
    u ∈ mapSubs root ↔ u ∈ subValues root ∧ u.isMap = true := by
  simp [mapSubs, List.mem_dedup, List.mem_filter]

theorem mapSubs_nodup (root : Value) : (mapSubs root).Nodup :=
  List.nodup_dedup _

theorem mapSubs_closed (root : Value) :
    ∀ t ∈ mapSubs root, ∀ c ∈ children t, c.isMap = true →
      c ∈ mapSubs root := by
  intro t ht c hc hm
  obtain ⟨hts, _⟩ := mem_mapSubs.mp ht
  exact mem_mapSubs.mpr
    ⟨subValues_trans root t hts c (children_mem_subValues hc), hm⟩

theorem writeGo_eq (fuel : Nat) (root : Value) (pkg : String) :
    writeGo fuel NG.new root pkg = runLoop fuel (startNG root pkg) := rfl

theorem startNG_written (root : Value) (pkg : String) :
    (startNG root pkg).written = [] :=
  (addType_ext (emit NG.new (Out.header pkg)) root).written_eq

theorem startNG_inv (root : Value) (pkg : String) : CtxInv (startNG root pkg) := by
  refine (addType_ext (emit NG.new (Out.header pkg)) root).inv ?_
  exact ⟨List.nodup_nil, List.nodup_nil, fun v hv => by simp [NG.new, emit] at hv⟩

theorem startNG_union {root : Value} (pkg : String) :
    ∀ u ∈ unionList (startNG root pkg), u = root ∧ u.isMap = true := by
  intro u hu
  rcases (addType_ext (emit NG.new (Out.header pkg)) root).union_new u hu with
    h1 | ⟨h1, h2⟩
  · simp [unionList, NG.new, emit] at h1
  · simp only [List.mem_singleton] at h1
    exact ⟨h1, h1 ▸ h2⟩

theorem startNG_root_mem {root : Value} (pkg : String)
    (hm : root.isMap = true) : root ∈ unionList (startNG root pkg) :=
  addType_mem (emit NG.new (Out.header pkg)) hm

theorem startNG_out (root : Value) (pkg : String) :
    (startNG root pkg).out = [Out.header pkg] := by
  show (addType (emit NG.new (Out.header pkg)) root).out = _
  rw [addType_out]
  rfl

theorem children_of_str {s : String} {c : Value} :
    c ∈ children (Value.str s) → False := by
  intro h
  simp [children] at h

/-- C1. Exactly-once emission: along any run the `written` list (the
dispatch trace, in emission order) never repeats a definition; and on a
completed run every (structurally distinct) non-primitive definition
reachable from the root is in `written`, with the output containing exactly
one per-type block per element of `written`. -/
theorem generate_emits_each_type_once (fuel : Nat) (root : Value) (pkg : String) :
    ((writeGo fuel NG.new root pkg).state).written.Nodup ∧
    ∀ s', writeGo fuel NG.new root pkg = RunRes.done s' →
      (∀ t, Reaches root t → t.isMap = true → t ∈ s'.written) ∧
      typeCount s'.out = s'.written.length := by
  rw [writeGo_eq]
  constructor
  · exact ((runLoop_basic fuel (startNG root pkg)).2.1 (startNG_inv root pkg)).1
  · intro s' hr
    have hclosed0 : ClosedS (startNG root pkg) := by
      intro t ht
      rw [startNG_written] at ht
      simp at ht
    obtain ⟨hclosed, htw, habs⟩ :=
      runLoop_done fuel _ s' (startNG_inv root pkg) hclosed0 hr
    constructor
    · intro t hre
      induction hre with
      | refl =>
        intro hm
        exact habs root (startNG_root_mem pkg hm)
      | @step t0 c0 hr0 hc0 ihh =>
        intro hm
        have ht0 : t0.isMap = true := by
          cases t0 with
          | str s => exact absurd hc0 children_of_str
          | map ps => rfl
        have hcu : c0 ∈ unionList s' := hclosed t0 (ihh ht0) c0 hc0 hm
        unfold unionList at hcu
        rw [htw] at hcu
        simpa using hcu
    · have hcount := runLoop_count fuel _ s' (startNG_inv root pkg) hr
      rw [startNG_written, startNG_out] at hcount
      have h0 : typeCount [Out.header pkg] = 0 := rfl
      rw [h0] at hcount
      simpa using hcount

/-- C4. The `written`/`toWrite` sets are disjoint at every point of a
generate run (register and every prefix of the drain loop preserve
disjointness), and their union never loses an element. -/
theorem generator_sets_invariant (ng : NG) (val : Value) (fuel : Nat) :
    (Disj ng → Disj (addType ng val)) ∧
    (∀ u ∈ unionList ng, u ∈ unionList (addType ng val)) ∧
    (Disj ng → Disj ((runLoop fuel ng).state)) ∧
    (∀ u ∈ unionList ng, u ∈ unionList ((runLoop fuel ng).state)) :=
  ⟨fun hd => (addType_ext ng val).disj hd,
   (addType_ext ng val).union_mono,
   (runLoop_basic fuel ng).1,
   (runLoop_basic fuel ng).2.2⟩

/-- C9. Termination: fuel equal to the number of distinct mapping values
contained in the root (an upper bound on the distinct reachable
non-primitive definitions) always suffices — the drain loop never runs out;
moreover each loop iteration consumes a distinct reachable non-primitive
definition (`written` is duplicate-free and contains only such
definitions), so the iteration count is bounded by their number. -/
theorem generate_terminates_bounded (root : Value) (pkg : String) :
    (∀ fuel, fuelBound root ≤ fuel →
      ∀ s, writeGo fuel NG.new root pkg ≠ RunRes.outOfFuel s) ∧
    (∀ fuel, ((writeGo fuel NG.new root pkg).state).written.Nodup ∧
      ∀ t ∈ ((writeGo fuel NG.new root pkg).state).written,
        Reaches root t ∧ t.isMap = true) := by
  constructor
  · intro fuel hf s
    rw [writeGo_eq]
    refine runLoop_fuel fuel (mapSubs root) (startNG root pkg)
      (mapSubs_nodup root) (mapSubs_closed root) (startNG_inv root pkg)
      ?_ ?_ s
    · intro u hu
      obtain ⟨rfl, hm⟩ := startNG_union pkg u hu
      exact mem_mapSubs.mpr ⟨self_mem_subValues u, hm⟩
    · rw [startNG_written]
      rw [fuelBound_eq] at hf
      simpa using hf
  · intro fuel
    rw [writeGo_eq]
    constructor
    · exact ((runLoop_basic fuel (startNG root pkg)).2.1 (startNG_inv root pkg)).1
    · intro t ht
      have hrinv : RInv root (startNG root pkg) := by
        intro u hu
        obtain ⟨rfl, hm⟩ := startNG_union pkg u hu
        exact ⟨Reaches.refl, hm⟩
      refine runLoop_rinv fuel (startNG root pkg) root hrinv t ?_
      unfold unionList
      exact List.mem_append.mpr (Or.inl ht)

/-- C3. Idempotent registration: a scalar primitive is a no-op; a definition
already in either set is a no-op; registering a fresh mapping definition
twice before it is dequeued leaves exactly one occurrence of it in
`toWrite`. -/
theorem register_idempotent :
    (∀ (ng : NG) (s : String), addType ng (Value.str s) = ng) ∧
    (∀ (ng : NG) (t : Value), t ∈ ng.written ∨ t ∈ ng.toWrite →
      addType ng t = ng) ∧
    (∀ (ng : NG) (ps : List (Value × Value)),
      ng.toWrite.Nodup → Value.map ps ∉ ng.written →
      ((addType (addType ng (Value.map ps)) (Value.map ps)).toWrite.count
        (Value.map ps) = 1)) := by
  refine ⟨fun ng s => rfl, ?_, ?_⟩
  · intro ng t hmem
    cases t with
    | str s => rfl
    | map ps =>
      unfold addType
      rw [if_pos hmem]
  · intro ng ps hn hw
    by_cases htw : Value.map ps ∈ ng.toWrite
    · have h1 : addType ng (Value.map ps) = ng := by
        unfold addType
        rw [if_pos (Or.inr htw)]
      rw [h1, h1]
      exact List.count_eq_one_of_mem hn htw
    · have h1 : addType ng (Value.map ps) =
          { ng with toWrite := ng.toWrite ++ [Value.map ps] } := by
        unfold addType
        rw [if_neg (by tauto)]
        unfold setInsert
        rw [if_neg htw]
      have h2 : addType { ng with toWrite := ng.toWrite ++ [Value.map ps] }
          (Value.map ps) =
          { ng with toWrite := ng.toWrite ++ [Value.map ps] } := by
        unfold addType
        rw [if_pos (Or.inr (by simp))]
      rw [h1, h2]
      show (ng.toWrite ++ [Value.map ps]).count (Value.map ps) = 1
      rw [List.count_append]
      rw [List.count_eq_zero_of_not_mem htw]
      simp

theorem getGoStructName_prim {s : String} (h : s ∈ primNames) :
    getGoStructName (Value.str s) = some (title s) := by
  show goName (Value.str s).depth (Value.str s) = _
  show (if s ∈ primNames then some (title s) else none) = _
  rw [if_pos h]

theorem getGoStructName_unknown_prim {s : String} (h : s ∉ primNames) :
    getGoStructName (Value.str s) = none := by
  show (if s ∈ primNames then some (title s) else none) = _
  rw [if_neg h]

theorem depth_map_succ (ps : List (Value × Value)) :
    (Value.map ps).depth = pairsDepth ps + 1 := by
  show 1 + pairsDepth ps = pairsDepth ps + 1
  omega

theorem goName_depth_child {ps : List (Value × Value)} {key e : Value}
    (he : mapGet ps key = some e) :
    goName (pairsDepth ps) e = getGoStructName e :=
  goName_congr (pairsDepth ps) e.depth e (mapGet_depth_le he) (Nat.le_refl _)

theorem getGoStructName_listDef {ps : List (Value × Value)} {e : Value}
    (ht : mapGet ps (Value.str "$type") = some (Value.str "noms.ListDef"))
    (he : mapGet ps (Value.str "elem") = some e) :
    getGoStructName (Value.map ps) =
      (getGoStructName e).map (fun n => n ++ "List") := by
  show goName (Value.map ps).depth (Value.map ps) = _
  rw [depth_map_succ]
  simp only [goName, ht, String.reduceEq, if_true, if_false]
  rw [he, Option.some_bind, goName_depth_child he]

theorem getGoStructName_setDef {ps : List (Value × Value)} {e : Value}
    (ht : mapGet ps (Value.str "$type") = some (Value.str "noms.SetDef"))
    (he : mapGet ps (Value.str "elem") = some e) :
    getGoStructName (Value.map ps) =
      (getGoStructName e).map (fun n => n ++ "Set") := by
  show goName (Value.map ps).depth (Value.map ps) = _
  rw [depth_map_succ]
  simp only [goName, ht, String.reduceEq, if_true, if_false]
  rw [he, Option.some_bind, goName_depth_child he]

theorem getGoStructName_mapDef {ps : List (Value × Value)} {k v : Value}
    (ht : mapGet ps (Value.str "$type") = some (Value.str "noms.MapDef"))
    (hk : mapGet ps (Value.str "key") = some k)
    (hv : mapGet ps (Value.str "value") = some v) :
    getGoStructName (Value.map ps) =
      (getGoStructName k).bind (fun kn =>
        (getGoStructName v).map (fun vn => kn ++ vn ++ "Map")) := by
  show goName (Value.map ps).depth (Value.map ps) = _
  rw [depth_map_succ]
  simp only [goName, ht, String.reduceEq, if_true, if_false]
  rw [hk, Option.some_bind, hv, Option.some_bind, goName_depth_child hk]
  have hvv := goName_depth_child hv
  simp only [hvv]

theorem getGoStructName_structDef {ps : List (Value × Value)} {nm : String}
    (ht : mapGet ps (Value.str "$type") = some (Value.str "noms.StructDef"))
    (hn : mapGet ps (Value.str "$name") = some (Value.str nm)) :
    getGoStructName (Value.map ps) = some nm := by
  show goName (Value.map ps).depth (Value.map ps) = _
  rw [depth_map_succ]
  simp only [goName, ht, String.reduceEq, if_true, if_false]
  rw [hn]

/-- C2. The name resolver is a pure deterministic function of the type
definition and follows the five rules in order: recognized primitive names
map to their canonical capitalized (`strings.Title`) form; a `noms.ListDef`
to its element's name + `"List"`; a `noms.MapDef` to key-name + value-name +
`"Map"`; a `noms.SetDef` to its element's name + `"Set"`; a
`noms.StructDef` to its declared `$name` verbatim.  The worked examples hold
with the source's primitive vocabulary (the spec's `Text` is the text
primitive `"string"`, `Boolean` is `"bool"`, so their canonical capitalized
forms are `String` and `Bool`); structurally equal definitions always
resolve to identical strings. -/
theorem resolveName_rules :
    (∀ t1 t2 : Value, t1 = t2 → getGoStructName t1 = getGoStructName t2) ∧
    (∀ s ∈ primNames, getGoStructName (Value.str s) = some (title s)) ∧
    (∀ (ps : List (Value × Value)) (e : Value),
      mapGet ps (Value.str "$type") = some (Value.str "noms.ListDef") →
      mapGet ps (Value.str "elem") = some e →
      getGoStructName (Value.map ps) =
        (getGoStructName e).map (fun n => n ++ "List")) ∧
    (∀ (ps : List (Value × Value)) (k v : Value),
      mapGet ps (Value.str "$type") = some (Value.str "noms.MapDef") →
      mapGet ps (Value.str "key") = some k →
      mapGet ps (Value.str "value") = some v →
      getGoStructName (Value.map ps) =
        (getGoStructName k).bind (fun kn =>
          (getGoStructName v).map (fun vn => kn ++ vn ++ "Map"))) ∧
    (∀ (ps : List (Value × Value)) (e : Value),
      mapGet ps (Value.str "$type") = some (Value.str "noms.SetDef") →
      mapGet ps (Value.str "elem") = some e →
      getGoStructName (Value.map ps) =
        (getGoStructName e).map (fun n => n ++ "Set")) ∧
    (∀ (ps : List (Value × Value)) (nm : String),
      mapGet ps (Value.str "$type") = some (Value.str "noms.StructDef") →
      mapGet ps (Value.str "$name") = some (Value.str nm) →
      getGoStructName (Value.map ps) = some nm) ∧
    (getGoStructName (Value.str "int32") = some "Int32" ∧
     getGoStructName exListInt32 = some "Int32List" ∧
     getGoStructName exMapStringBool = some "StringBoolMap" ∧
     getGoStructName exSetString = some "StringSet" ∧
     getGoStructName exUser = some "User") := by
  refine ⟨fun t1 t2 h => by rw [h],
    fun s h => getGoStructName_prim h,
    fun ps e ht he => getGoStructName_listDef ht he,
    fun ps k v ht hk hv => getGoStructName_mapDef ht hk hv,
    fun ps e ht he => getGoStructName_setDef ht he,
    fun ps nm ht hn => getGoStructName_structDef ht hn,
    by decide, by decide, by decide, by decide, by decide⟩

/-- Witness for C2: the `noms.ListDef` rule applied at the concrete
`Sequence(Int32)` example, with both lookups discharged by computation. -/
theorem resolveName_rules_witness :
    getGoStructName exListInt32 =
      (getGoStructName (Value.str "int32")).map (fun n => n ++ "List") :=
  resolveName_rules.2.2.1
    [(Value.str "$type", Value.str "noms.ListDef"),
     (Value.str "elem", Value.str "int32")]
    (Value.str "int32") (by decide) (by decide)

/-- C5 counterexample: two structurally distinct definitions (two records
declaring the same `$name` but different fields) resolve to the same
generated name, so the resolver is not collision-resistant over all
structurally distinct definitions. -/
theorem name_collision_cex :
    recA1 ≠ recA2 ∧
    getGoStructName recA1 = some "A" ∧
    getGoStructName recA2 = some "A" := by
  refine ⟨by decide, by decide, by decide⟩

/-- C5 amended: generated names are derived purely and deterministically
from type shape (structurally equal definitions always get the same name),
and on the recognized scalar primitives the naming is collision-free; but
structurally distinct composite definitions can share a name (a NamedRecord
carries its `$name` verbatim, so two records with equal `$name` and
different fields collide). -/
theorem naming_shape_deterministic :
    (∀ t1 t2 : Value, t1 = t2 → getGoStructName t1 = getGoStructName t2) ∧
    primNames.Pairwise (fun p1 p2 =>
      getGoStructName (Value.str p1) ≠ getGoStructName (Value.str p2)) := by
  constructor
  · intro t1 t2 h
    rw [h]
  · decide

/-- Witness for C5's amended theorem: determinism applied at a concrete
definition. -/
theorem naming_shape_deterministic_witness :
    getGoStructName (Value.str "int32") = getGoStructName (Value.str "int32") :=
  naming_shape_deterministic.1 (Value.str "int32") (Value.str "int32") rfl

/-- C6. Malformed definitions are fatal: a mapping whose `$type`
discriminator is none of the four known shapes makes `writeType` abort with
the state unchanged (output already written is kept, not rolled back); a
scalar name outside the recognized set resolves to `Chk.Fail` (`none`); and
dispatching e.g. a `noms.ListDef` whose element is such an unknown scalar
aborts generation. -/
theorem malformed_typedef_fatal :
    (∀ (ng : NG) (val : Value) (typ : String),
      val.get (Value.str "$type") = some (Value.str typ) →
      typ ≠ "noms.ListDef" → typ ≠ "noms.MapDef" → typ ≠ "noms.SetDef" →
      typ ≠ "noms.StructDef" →
      writeType ng val = Except.error ng) ∧
    (∀ s : String, s ∉ primNames → getGoStructName (Value.str s) = none) ∧
    (∀ (ng : NG) (ps : List (Value × Value)) (n : String),
      mapGet ps (Value.str "$type") = some (Value.str "noms.ListDef") →
      mapGet ps (Value.str "elem") = some (Value.str n) →
      n ∉ primNames →
      writeType ng (Value.map ps) = Except.error ng) := by
  refine ⟨?_, ?_, ?_⟩
  · intro ng val typ hget h1 h2 h3 h4
    unfold writeType
    cases val with
    | str s => cases hget
    | map ps =>
      simp only [Value.get] at hget
      simp only [Value.get, hget]
      rw [if_neg h1, if_neg h2, if_neg h3, if_neg h4]
  · intro s h
    exact getGoStructName_unknown_prim h
  · intro ng ps n ht he hnp
    have hname : getGoTypeName (Value.map ps) = none := by
      show getGoStructName (Value.map ps) = none
      rw [getGoStructName_listDef ht he, getGoStructName_unknown_prim hnp]
      rfl
    unfold writeType
    simp only [Value.get, ht, String.reduceEq, if_true, if_false]
    unfold writeList
    simp only [Value.get, he, hname]
    rfl

theorem iterFields_filter_sigil (sn : String) :
    ∀ (ps : List (Value × Value)) (ng : NG),
      iterFields ng sn ps =
        iterFields ng sn (ps.filter (fun p => !(isSigilField p))) := by
  intro ps
  induction ps with
  | nil => intro ng; rfl
  | cons p rest ih =>
    intro ng
    obtain ⟨k, v⟩ := p
    cases k with
    | map mps =>
      rw [List.filter_cons_of_pos (by simp [isSigilField])]
      rfl
    | str sk =>
      by_cases he : sk = ""
      · subst he
        rw [List.filter_cons_of_pos (by simp [isSigilField])]
        rfl
      · by_cases hd : sk.front = '$'
        · rw [List.filter_cons_of_neg (by simp [isSigilField, he, hd])]
          have hL : iterFields ng sn ((Value.str sk, v) :: rest) =
              iterFields ng sn rest := by
            simp only [iterFields, if_neg he, if_pos hd]
          rw [hL, ih ng]
        · rw [List.filter_cons_of_pos (by simp [isSigilField, he, hd])]
          simp only [iterFields, if_neg he, if_neg hd]
          cases hw : writeField ng sn sk v with
          | ok ng1 => exact ih ng1
          | error s => rfl

/-- C7. Metadata exclusion: dropping every `'$'`-sigil field from a record's
iteration changes nothing — such a field is never rendered and never
registers its value as a child type; and a non-sigil field is handed to
`writeField`, which both registers the field's type and renders the field
template. -/
theorem metadata_fields_excluded :
    (∀ (ng : NG) (sn : String) (ps : List (Value × Value)),
      iterFields ng sn ps =
        iterFields ng sn (ps.filter (fun p => !(isSigilField p)))) ∧
    (∀ (ng : NG) (sn fn : String) (v : Value) (ft : String),
      getGoTypeName v = some ft →
      writeField ng sn fn v =
        Except.ok (emit (addType ng v) (Out.fieldT sn ft (title fn) fn))) := by
  constructor
  · intro ng sn ps
    exact iterFields_filter_sigil sn ps ng
  · intro ng sn fn v ft h
    unfold writeField
    rw [h]

theorem iterFields_ok_out {sn : String} :
    ∀ {ps : List (Value × Value)} {ng s' : NG},
      iterFields ng sn ps = Except.ok s' →
      s'.out = ng.out ++ (ps.filter keepField).map (blockOf sn) := by
  intro ps
  induction ps with
  | nil =>
    intro ng s' h
    cases h
    simp
  | cons p rest ih =>
    intro ng s' h
    obtain ⟨k, v⟩ := p
    cases k with
    | map mps => cases h
    | str sk =>
      by_cases he : sk = ""
      · subst he
        simp only [iterFields, if_pos rfl] at h
        cases h
      · by_cases hd : sk.front = '$'
        · simp only [iterFields, if_neg he, if_pos hd] at h
          rw [List.filter_cons_of_neg (by simp [keepField, he, hd])]
          exact ih h
        · simp only [iterFields, if_neg he, if_neg hd] at h
          cases hw : writeField ng sn sk v with
          | error s => simp only [hw] at h; cases h
          | ok ng1 =>
            simp only [hw] at h
            rw [List.filter_cons_of_pos (by simp [keepField, he, hd])]
            unfold writeField at hw
            cases hft : getGoTypeName v with
            | none => rw [hft] at hw; cases hw
            | some ft =>
              rw [hft] at hw
              cases hw
              have hout := ih h
              rw [hout]
              have hb : blockOf sn (Value.str sk, v) =
                  Out.fieldT sn ft (title sk) sk := by
                simp only [blockOf, hft]
                rfl
              show (emit (addType ng v) _).out ++ _ = _
              unfold emit
              simp only [addType_out, List.map_cons, hb,
                List.append_assoc, List.cons_append, List.nil_append]

/-- C8. Field order preservation: a successful record emission appends the
record header block followed by one field block per non-metadata field, in
exactly the record's stored pair order. -/
theorem field_order_preserved (ng s' : NG) (ps : List (Value × Value))
    (h : writeStruct ng (Value.map ps) = Except.ok s') :
    s'.out = ng.out ++
      Out.structT ((getGoTypeName (Value.map ps)).getD "") ::
        (ps.filter keepField).map
          (blockOf ((getGoTypeName (Value.map ps)).getD "")) := by
  unfold writeStruct at h
  cases hn : getGoTypeName (Value.map ps) with
  | none => rw [hn] at h; cases h
  | some sn =>
    simp only [hn] at h
    have hout := iterFields_ok_out h
    rw [hout]
    show (emit ng _).out ++ _ = _
    unfold emit
    simp only [hn, Option.getD_some, List.append_assoc, List.cons_append,
      List.nil_append]

theorem iterFields_empty_name {sn : String} :
    ∀ {ps : List (Value × Value)} (ng : NG) {v : Value},
      (Value.str "", v) ∈ ps → ∃ s, iterFields ng sn ps = Except.error s := by
  intro ps
  induction ps with
  | nil => intro ng v h; simp at h
  | cons p rest ih =>
    intro ng v hmem
    obtain ⟨k, w⟩ := p
    rcases List.mem_cons.mp hmem with heq | htail
    · injection heq with e1 e2
      subst e1
      exact ⟨ng, rfl⟩
    · cases k with
      | map mps => exact ⟨ng, rfl⟩
      | str sk =>
        by_cases he : sk = ""
        · subst he
          exact ⟨ng, rfl⟩
        · by_cases hd : sk.front = '$'
          · obtain ⟨s, hs⟩ := ih ng htail
            refine ⟨s, ?_⟩
            simp only [iterFields, if_neg he, if_pos hd]
            exact hs
          · cases hw : writeField ng sn sk w with
            | error s =>
              refine ⟨s, ?_⟩
              simp only [iterFields, if_neg he, if_neg hd, hw]
            | ok ng1 =>
              obtain ⟨s, hs⟩ := ih ng1 htail
              refine ⟨s, ?_⟩
              simp only [iterFields, if_neg he, if_neg hd, hw]
              exact hs

/-- C10. The metadata-sigil test reads the field name's first byte without
a length guard: a record containing a field whose name is the empty string
makes emission abort (index out of range) rather than emit or skip the
field. -/
theorem empty_field_name_crashes (ng : NG) (ps : List (Value × Value))
    (v : Value) (hmem : (Value.str "", v) ∈ ps) :
    ∃ s, writeStruct ng (Value.map ps) = Except.error s := by
  unfold writeStruct
  cases hn : getGoTypeName (Value.map ps) with
  | none => exact ⟨ng, rfl⟩
  | some sn => exact iterFields_empty_name _ hmem

/-- Witness for C1: the completed Point run emits the root record itself. -/
theorem generate_emits_each_type_once_witness :
    pointDef ∈ pointRun.written :=
  ((generate_emits_each_type_once 4 pointDef "user").2 pointRun
    (by decide)).1 pointDef Reaches.refl rfl

/-- Witness for C3: double registration of a fresh record leaves one pending
occurrence. -/
theorem register_idempotent_witness :
    (addType (addType NG.new recA1) recA1).toWrite.count recA1 = 1 :=
  register_idempotent.2.2 NG.new
    [(Value.str "$type", Value.str "noms.StructDef"),
     (Value.str "$name", Value.str "A")]
    (by decide) (by decide)

/-- Witness for C4: registration from the empty context keeps the sets
disjoint. -/
theorem generator_sets_invariant_witness :
    Disj (addType NG.new recA1) :=
  (generator_sets_invariant NG.new recA1 0).1
    (fun v hv => by simp [NG.new] at hv)

/-- Witness for C6: dispatching an unknown discriminator aborts with the
context unchanged. -/
theorem malformed_typedef_fatal_witness :
    writeType NG.new badDef = Except.error NG.new :=
  malformed_typedef_fatal.1 NG.new badDef "noms.WeirdDef"
    (by decide) (by decide) (by decide) (by decide) (by decide)

/-- Witness for C7: a concrete non-sigil field is registered and rendered. -/
theorem metadata_fields_excluded_witness :
    writeField NG.new "Point" "x" (Value.str "int32") =
      Except.ok (emit (addType NG.new (Value.str "int32"))
        (Out.fieldT "Point" "types.Int32" (title "x") "x")) :=
  metadata_fields_excluded.2 NG.new "Point" "x" (Value.str "int32")
    "types.Int32" (by decide)

/-- Witness for C8: the Point record's two fields are emitted in declaration
order `x`, `y`. -/
theorem field_order_preserved_witness :
    pointStructRun.out = NG.new.out ++
      Out.structT ((getGoTypeName (Value.map pointPairs)).getD "") ::
        (pointPairs.filter keepField).map
          (blockOf ((getGoTypeName (Value.map pointPairs)).getD "")) :=
  field_order_preserved NG.new pointStructRun pointPairs (by decide)

/-- Witness for C9: fuel 4 exceeds the bound for the Point root, so its run
is never out of fuel. -/
theorem generate_terminates_bounded_witness :
    writeGo 4 NG.new pointDef "user" ≠ RunRes.outOfFuel NG.new :=
  (generate_terminates_bounded pointDef "user").1 4 (by decide) NG.new

/-- Witness for C10: a record with an empty-named field crashes emission. -/
theorem empty_field_name_crashes_witness :
    ∃ s, writeStruct NG.new (Value.map emptyFieldRec) = Except.error s :=
  empty_field_name_crashes NG.new emptyFieldRec (Value.str "int32") (by decide)
